import Mathlib

/-!
Verification of the concurrent directory scanner `scan.py` (repository `lrem/reorg`).

The development shallowly embeds the scanner's data model and per-directory
pass (`Scanner._scan_dir`, `Scanner._ignored`, `Scanner._process_file`), the
worker loop (`Scanner.loop`), the sink-queue record emitters
(`DB.record_file` / `record_directory` / `record_symlink` / `record_failure`
over `queue.put_nowait`), and a sequential whole-run traversal over a finite
filesystem tree.  Wall-clock timestamps (`time.time()`) are passed or elided
where no property depends on them; the content-fingerprint function
(`md5`, explicitly out of the specification's scope) is an arbitrary
function from byte lists to strings.
-/

/-- A directory entry as classified by `os.scandir`.  `os.DirEntry.is_dir()`
and `is_file()` follow symlinks by default, so the model distinguishes a
symlink by what its target resolves to: a directory (with its resolved
children), a regular file (with the target's bytes, size and mtime), or
neither (dangling symlink, or a link to a special file).  `other` stands for
a non-symlink special entry such as a FIFO or socket. -/
inductive FSNode where
  | file (name : String) (content : List Nat) (size : Nat) (mtime : Int)
  | dir (name : String) (children : List FSNode)
  | symlinkDir (name : String) (target : String) (resolved : List FSNode)
  | symlinkFile (name : String) (target : String) (content : List Nat) (size : Nat) (mtime : Int)
  | symlinkOther (name : String) (target : String)
  | other (name : String)

/-- The entry's base name (`item.name`). -/
def nodeName : FSNode → String
  | .file n _ _ _ => n
  | .dir n _ => n
  | .symlinkDir n _ _ => n
  | .symlinkFile n _ _ _ _ => n
  | .symlinkOther n _ => n
  | .other n => n

/-- `item.is_dir()`: true for a directory or a symlink resolving to one
(symlinks are followed by default). -/
def isDirE : FSNode → Bool
  | .dir _ _ => true
  | .symlinkDir _ _ _ => true
  | _ => false

/-- `item.is_file()`: true for a regular file or a symlink resolving to one. -/
def isFileE : FSNode → Bool
  | .file _ _ _ _ => true
  | .symlinkFile _ _ _ _ _ => true
  | _ => false

/-- `item.is_symlink()`: true for every symlink, whatever its target. -/
def isSymlinkE : FSNode → Bool
  | .symlinkDir _ _ _ => true
  | .symlinkFile _ _ _ _ _ => true
  | .symlinkOther _ _ => true
  | _ => false

/-- Whether the entry is a symlink resolving to neither a directory nor a
regular file: the only entries that reach the `record_symlink` call. -/
def isSymOther : FSNode → Bool
  | .symlinkOther _ _ => true
  | _ => false

/-- Whether the entry is a non-symlink special file (FIFO, socket, ...):
the only entries on which `assert item.is_symlink()` fails. -/
def isOther : FSNode → Bool
  | .other _ => true
  | _ => false

/-- An entry list containing no special (FIFO/socket) entry. -/
def cleanEntries (es : List FSNode) : Bool := es.all (fun c => !isOther c)

/-- `os.readlink(abs_item)`: the raw symlink target, not followed. -/
def linkTarget : FSNode → String
  | .symlinkDir _ t _ => t
  | .symlinkFile _ t _ _ _ => t
  | .symlinkOther _ t => t
  | _ => ""

/-- The bytes `open(abs_path, "rb")` reads: for a symlink to a regular file
the target's bytes (open follows symlinks). -/
def contentOf : FSNode → List Nat
  | .file _ c _ _ => c
  | .symlinkFile _ _ c _ _ => c
  | _ => []

/-- `os.stat(abs_path).st_size` (stat follows symlinks). -/
def statSize : FSNode → Nat
  | .file _ _ s _ => s
  | .symlinkFile _ _ _ s _ => s
  | _ => 0

/-- `os.stat(abs_path).st_mtime` (stat follows symlinks; modelled as Int). -/
def statMtime : FSNode → Int
  | .file _ _ _ m => m
  | .symlinkFile _ _ _ _ m => m
  | _ => 0

/-- The children enumerated by `os.scandir` at the entry's path: for a
symlink to a directory, scandir follows the link and lists the target. -/
def childrenOf : FSNode → List FSNode
  | .dir _ cs => cs
  | .symlinkDir _ _ cs => cs
  | _ => []

/-- `os.path.join(path, name)` for a relative (slash-free) name. -/
def pathJoin (p n : String) : String := p ++ "/" ++ n

/-- A record pushed to the sink queue, one constructor per `DB.record_*`
method.  `dirRec` carries the three counts of `record_directory`;
`failureRec` carries `str(e)`.  The `time.time()` columns are not modelled. -/
inductive Record where
  | fileRec (absPath baseName dirName ext : String) (size : Nat) (mtime : Int) (digest : String)
  | dirRec (absPath : String) (fileCount dirCount symlinkCount : Nat)
  | symlinkRec (absPath target : String)
  | failureRec (absPath : String) (errMsg : String)
deriving DecidableEq, Repr

/-- The key (abs_path primary-key column) of a record. -/
def recordKey : Record → String
  | .fileRec p _ _ _ _ _ _ => p
  | .dirRec p _ _ _ => p
  | .symlinkRec p _ => p
  | .failureRec p _ => p

def keysOf (rs : List Record) : List String := rs.map recordKey

def isFileRec : Record → Bool
  | .fileRec _ _ _ _ _ _ _ => true
  | _ => false

def isDirRec : Record → Bool
  | .dirRec _ _ _ _ => true
  | _ => false

def isSymlinkRec : Record → Bool
  | .symlinkRec _ _ => true
  | _ => false

/-- Glob matching as `fnmatch.fnmatch` performs it on POSIX, for the
pattern constructs the tool uses: `*` matches any run of characters, `?`
any single character, anything else itself (bracket classes unmodelled).
The fuel argument only bounds the recursion depth — every recursive call
shrinks pattern-length + text-length by at least one, so the wrapper below
always supplies enough. -/
def globMatchF : Nat → List Char → List Char → Bool
  | 0, _, _ => false
  | _ + 1, [], [] => true
  | f + 1, '*' :: ps, [] => globMatchF f ps []
  | _ + 1, _ :: _, [] => false
  | _ + 1, [], _ :: _ => false
  | f + 1, '*' :: ps, c :: cs => globMatchF f ps (c :: cs) || globMatchF f ('*' :: ps) cs
  | f + 1, '?' :: ps, _ :: cs => globMatchF f ps cs
  | f + 1, p :: ps, c :: cs => (p == c) && globMatchF f ps cs

def globMatch (ps cs : List Char) : Bool := globMatchF (ps.length + cs.length + 1) ps cs

/-- `Scanner._ignored` (scan.py:127-131): whether any configured ignore
pattern matches the entry name. -/
def isIgnored (ig : List String) (name : String) : Bool :=
  ig.any (fun pat => globMatch pat.toList name.toList)

/-- Python's `name.split(sep)` for a single-character separator. -/
def pySplit (sep : Char) : List Char → List (List Char)
  | [] => [[]]
  | c :: cs =>
    let r := pySplit sep cs
    if c == sep then [] :: r
    else (c :: r.headD []) :: r.tail

/-- The last segment `name.split('.')[-1]`. -/
def lastSeg (l : List Char) : List Char := (pySplit '.' l).getLastD []

/-- The extension computation of `Scanner._process_file` (scan.py:136-139):
`name.split('.')[-1]` when the name contains a dot, else the empty string. -/
def extList (l : List Char) : List Char := if '.' ∈ l then lastSeg l else []

def extensionOf (name : String) : String := String.mk (extList name.toList)

/-- `os.path.dirname` for POSIX paths: everything up to the final slash,
with trailing slashes stripped unless the head is all slashes. -/
def dirnameOf (p : String) : String :=
  let l := p.toList
  let head := (l.reverse.dropWhile (fun c => c != '/')).reverse
  if head ≠ [] ∧ head.any (fun c => c != '/') then
    String.mk ((head.reverse.dropWhile (fun c => c == '/')).reverse)
  else String.mk head

/-- `Scanner._process_file` (scan.py:133-142): stat the entry, compute its
digest from its bytes, and build the files row pushed via `record_file`. -/
def processFile (hash : List Nat → String) (dirPath : String) (item : FSNode) : Record :=
  let absPath := pathJoin dirPath (nodeName item)
  Record.fileRec absPath (nodeName item) (dirnameOf absPath) (extensionOf (nodeName item))
    (statSize item) (statMtime item) (hash (contentOf item))

/-- The loop state of `Scanner._scan_dir`: the collected `files` list, the
three counters, the records already pushed to the sink queue, and the
directory paths pushed to the work queue (each carried together with the
model node whose children live at that path). -/
structure PassAcc where
  files : List FSNode
  dirCount : Nat
  symCount : Nat
  emitted : List Record
  enq : List (String × FSNode)

/-- The entry loop of `Scanner._scan_dir` (scan.py:107-120).  A directory
(anything `is_dir()`) is counted and, unless ignore-matched, enqueued; in a
not-done pass a file (anything `is_file()`) is collected, any other entry
must satisfy `assert item.is_symlink()` and is emitted as a symlink row.
An assertion failure aborts the loop, keeping what was already pushed. -/
def passLoop (ig : List String) (done : Bool) (path : String) :
    List FSNode → PassAcc → PassAcc × Option String
  | [], acc => (acc, none)
  | item :: rest, acc =>
    let name := nodeName item
    let absItem := pathJoin path name
    if isDirE item then
      passLoop ig done path rest { acc with
        enq := if isIgnored ig name then acc.enq else acc.enq ++ [(absItem, item)],
        dirCount := acc.dirCount + 1 }
    else if !done then
      if isFileE item then
        passLoop ig done path rest { acc with files := acc.files ++ [item] }
      else if isSymlinkE item then
        passLoop ig done path rest { acc with
          emitted := acc.emitted ++ [Record.symlinkRec absItem (linkTarget item)],
          symCount := acc.symCount + 1 }
      else (acc, some "AssertionError: item.is_symlink()")
    else passLoop ig done path rest acc

/-- The outcome of one `Scanner._scan_dir` call: records pushed to the sink
queue (in push order), work-queue enqueues, and the exception if one
escaped. -/
structure ScanResult where
  emitted : List Record
  enq : List (String × FSNode)
  err : Option String

/-- `Scanner._scan_dir` (scan.py:99-125): look the path up in the resume
set, run the entry loop, then — only when the directory was not already
done and the loop finished — process the collected files and emit the
directory row with `len(files)`, `dir_count` and `symlink_count`. -/
def scanDir (hash : List Nat → String) (ig dn : List String) (path : String)
    (entries : List FSNode) : ScanResult :=
  let done := dn.contains path
  match passLoop ig done path entries ⟨[], 0, 0, [], []⟩ with
  | (acc, some e) => ⟨acc.emitted, acc.enq, some e⟩
  | (acc, none) =>
    if done then ⟨acc.emitted, acc.enq, none⟩
    else ⟨acc.emitted ++ acc.files.map (processFile hash path) ++
            [Record.dirRec path acc.files.length acc.dirCount acc.symCount],
          acc.enq, none⟩

/-- `Scanner.loop` (scan.py:83-93) over a drained work list: each dequeued
path is scanned; whatever the scan pushed stays pushed, an escaped
exception becomes one `record_failure` row, and the loop always proceeds to
the next item.  The scan behaviour is a parameter: it returns the records
the scan pushed before finishing or dying, and the exception if it died. -/
def workerLoop (scan : String → List Record × Option String) : List String → List Record
  | [] => []
  | p :: rest =>
    (scan p).1 ++
      (match (scan p).2 with
        | some e => [Record.failureRec p e]
        | none => []) ++
      workerLoop scan rest

/-- The spec's per-kind tally of a directory's direct entries: a symlink is
a symlink whatever it points at, a directory only a real directory. -/
def specFileTally (es : List FSNode) : Nat :=
  es.countP (fun c => match c with | .file _ _ _ _ => true | _ => false)

/-- The spec's tally of direct subdirectory entries (real directories). -/
def specDirTally (es : List FSNode) : Nat :=
  es.countP (fun c => match c with | .dir _ _ => true | _ => false)

/-- The spec's tally of direct symlink entries (`is_symlink()`-true). -/
def specSymlinkTally (es : List FSNode) : Nat := es.countP isSymlinkE

/-- The entries `_scan_dir` collects into its `files` list: everything that
reaches the `elif`'s `item.is_file()` branch of a not-done pass. -/
def filesOf (es : List FSNode) : List FSNode :=
  es.filter (fun c => !isDirE c && isFileE c)

/-- The symlink rows a not-done pass pushes while looping, in order. -/
def symlinkRecsOf (p : String) (es : List FSNode) : List Record :=
  es.filterMap (fun c => match c with
    | .symlinkOther nm tg => some (Record.symlinkRec (pathJoin p nm) tg)
    | _ => none)

/-- The work-queue enqueues of a pass: every `is_dir()` entry whose name
matches no ignore pattern, in order, paired with its model node. -/
def enqOf (ig : List String) (p : String) (es : List FSNode) : List (String × FSNode) :=
  (es.filter (fun c => isDirE c && !isIgnored ig (nodeName c))).map
    (fun c => (pathJoin p (nodeName c), c))

/- ### Sink queue and DB record emitters -/

/-- One value bound to a `?` placeholder of a sink operation. -/
inductive SqlParam where
  | s (v : String)
  | n (v : Nat)
  | i (v : Int)
deriving DecidableEq, Repr

/-- An operation descriptor on the sink queue: the SQL text and its
parameters, exactly the pairs the `DB.record_*` methods build. -/
abbrev SinkOp := String × List SqlParam

/-- The sink queue: `queue.Queue(maxsize=writer_queue_length)`.  As in
Python, `maxsize = 0` means unbounded. -/
structure SinkQueue where
  maxsize : Nat
  items : List SinkOp
deriving DecidableEq, Repr

/-- Whether a bounded queue is at capacity. -/
def sinkFull (q : SinkQueue) : Bool := decide (0 < q.maxsize) && decide (q.maxsize ≤ q.items.length)

/-- `queue.Queue.put_nowait`: appends when there is room, otherwise fails
immediately with `queue.Full` — it never waits. -/
def putNowait (q : SinkQueue) (op : SinkOp) : Except String SinkQueue :=
  if sinkFull q then .error "queue.Full" else .ok { q with items := q.items ++ [op] }

namespace DB

/-- `DB.record_file` (scan.py:19-30). -/
def record_file (q : SinkQueue) (absPath baseName dirName ext : String)
    (size : Nat) (mtime : Int) (md5Hex : String) : Except String SinkQueue :=
  putNowait q ("replace into files values (?, ?, ?, ?, ?, ?, ?)",
    [.s absPath, .s baseName, .s dirName, .s ext, .n size, .i mtime, .s md5Hex])

/-- `DB.record_directory` (scan.py:32-40); `now` stands for `time.time()`. -/
def record_directory (q : SinkQueue) (absPath : String)
    (fileCount dirCount symlinkCount : Nat) (now : Int) : Except String SinkQueue :=
  putNowait q ("replace into directories values (?, ?, ?, ?, ?)",
    [.s absPath, .n fileCount, .n dirCount, .n symlinkCount, .i now])

/-- `DB.record_symlink` (scan.py:42-44). -/
def record_symlink (q : SinkQueue) (absPath target : String) : Except String SinkQueue :=
  putNowait q ("replace into symlinks values (?, ?)", [.s absPath, .s target])

/-- `DB.record_failure` (scan.py:46-50); `now` stands for `time.time()`. -/
def record_failure (q : SinkQueue) (absPath : String) (errMsg : String)
    (now : Int) : Except String SinkQueue :=
  putNowait q ("replace into failures values(?, ?, ?)", [.s absPath, .i now, .s errMsg])

end DB

/- ### Characterization of the entry loop -/

/-- A pass over an already-done directory pushes nothing and collects
nothing: it only counts `is_dir()` entries and enqueues the non-ignored
ones.  No assertion is ever evaluated, so the loop cannot die. -/
theorem passLoop_done (ig : List String) (p : String) :
    ∀ (es : List FSNode) (fs : List FSNode) (dc sc : Nat) (em : List Record)
      (eq : List (String × FSNode)),
      passLoop ig true p es ⟨fs, dc, sc, em, eq⟩ =
        (⟨fs, dc + es.countP isDirE, sc, em, eq ++ enqOf ig p es⟩, none) := by
  intro es
  induction es with
  | nil => intro fs dc sc em eq; simp [passLoop, enqOf]
  | cons c rest ih =>
    intro fs dc sc em eq
    cases c with
    | dir nm cs =>
      by_cases hig : isIgnored ig nm
      · simp [passLoop, isDirE, nodeName, hig, ih, enqOf, List.filter_cons,
          List.countP_cons, isSymOther]
        omega
      · simp [passLoop, isDirE, nodeName, hig, ih, enqOf, List.filter_cons,
          List.countP_cons, isSymOther, List.append_assoc]
        omega
    | symlinkDir nm tg cs =>
      by_cases hig : isIgnored ig nm
      · simp [passLoop, isDirE, nodeName, hig, ih, enqOf, List.filter_cons,
          List.countP_cons, isSymOther]
        omega
      · simp [passLoop, isDirE, nodeName, hig, ih, enqOf, List.filter_cons,
          List.countP_cons, isSymOther, List.append_assoc]
        omega
    | file nm ct sz mt =>
      simp [passLoop, isDirE, isFileE, ih, enqOf, List.filter_cons, List.countP_cons]
    | symlinkFile nm tg ct sz mt =>
      simp [passLoop, isDirE, isFileE, ih, enqOf, List.filter_cons, List.countP_cons]
    | symlinkOther nm tg =>
      simp [passLoop, isDirE, isFileE, isSymlinkE, ih, enqOf, List.filter_cons,
        List.countP_cons]
    | other nm =>
      simp [passLoop, isDirE, isFileE, isSymlinkE, ih, enqOf, List.filter_cons,
        List.countP_cons]

/-- A not-done pass over entries free of special files finishes without an
assertion failure, collects exactly the `is_file()` non-`is_dir()` entries
in order, pushes exactly the dangling-symlink rows in order, counts
`is_dir()` entries and dangling symlinks, and enqueues exactly the
non-ignored `is_dir()` entries. -/
theorem cleanEntries_cons (c : FSNode) (rest : List FSNode) :
    cleanEntries (c :: rest) = (!isOther c && cleanEntries rest) := by
  simp [cleanEntries, List.all_cons]

theorem passLoop_clean (ig : List String) (p : String) :
    ∀ (es : List FSNode), cleanEntries es = true →
      ∀ (fs : List FSNode) (dc sc : Nat) (em : List Record) (eq : List (String × FSNode)),
      passLoop ig false p es ⟨fs, dc, sc, em, eq⟩ =
        (⟨fs ++ filesOf es, dc + es.countP isDirE, sc + es.countP isSymOther,
          em ++ symlinkRecsOf p es, eq ++ enqOf ig p es⟩, none) := by
  intro es
  induction es with
  | nil => intro _ fs dc sc em eq; simp [passLoop, enqOf, filesOf, symlinkRecsOf]
  | cons c rest ih =>
    intro hc fs dc sc em eq
    rw [cleanEntries_cons] at hc
    rcases Bool.and_eq_true_iff.mp hc with ⟨hco, hcr⟩
    cases c with
    | dir nm cs =>
      by_cases hig : isIgnored ig nm
      · simp [passLoop, isDirE, nodeName, hig, ih hcr, enqOf, filesOf, symlinkRecsOf,
          List.filter_cons, List.filterMap_cons, List.countP_cons, isSymOther, isFileE]
        omega
      · simp [passLoop, isDirE, nodeName, hig, ih hcr, enqOf, filesOf, symlinkRecsOf,
          List.filter_cons, List.filterMap_cons, List.countP_cons, isSymOther, isFileE,
          List.append_assoc]
        omega
    | symlinkDir nm tg cs =>
      by_cases hig : isIgnored ig nm
      · simp [passLoop, isDirE, nodeName, hig, ih hcr, enqOf, filesOf, symlinkRecsOf,
          List.filter_cons, List.filterMap_cons, List.countP_cons, isSymOther, isFileE]
        omega
      · simp [passLoop, isDirE, nodeName, hig, ih hcr, enqOf, filesOf, symlinkRecsOf,
          List.filter_cons, List.filterMap_cons, List.countP_cons, isSymOther, isFileE,
          List.append_assoc]
        omega
    | file nm ct sz mt =>
      simp [passLoop, isDirE, isFileE, ih hcr, enqOf, filesOf, symlinkRecsOf,
        List.filter_cons, List.filterMap_cons, List.countP_cons, isSymOther,
        List.append_assoc]
    | symlinkFile nm tg ct sz mt =>
      simp [passLoop, isDirE, isFileE, ih hcr, enqOf, filesOf, symlinkRecsOf,
        List.filter_cons, List.filterMap_cons, List.countP_cons, isSymOther,
        List.append_assoc]
    | symlinkOther nm tg =>
      simp [passLoop, isDirE, isFileE, isSymlinkE, nodeName, linkTarget, ih hcr,
        enqOf, filesOf, symlinkRecsOf, List.filter_cons, List.filterMap_cons,
        List.countP_cons, isSymOther, List.append_assoc]
      omega
    | other nm =>
      simp [isOther] at hco

/-- Splitting a pass at a list split: if the first half finished, the pass
continues into the second half from the state the first half left. -/
theorem passLoop_append (ig : List String) (d : Bool) (p : String) :
    ∀ (l1 l2 : List FSNode) (acc : PassAcc),
      passLoop ig d p (l1 ++ l2) acc =
        match passLoop ig d p l1 acc with
        | (a, none) => passLoop ig d p l2 a
        | (a, some e) => (a, some e) := by
  intro l1
  induction l1 with
  | nil => intro l2 acc; simp [passLoop]
  | cons c rest ih =>
    intro l2 acc
    cases c with
    | dir nm cs => simp [passLoop, isDirE, ih]
    | symlinkDir nm tg cs => simp [passLoop, isDirE, ih]
    | file nm ct sz mt =>
      cases d with
      | true => simp [passLoop, isDirE, isFileE, ih]
      | false => simp [passLoop, isDirE, isFileE, ih]
    | symlinkFile nm tg ct sz mt =>
      cases d with
      | true => simp [passLoop, isDirE, isFileE, ih]
      | false => simp [passLoop, isDirE, isFileE, ih]
    | symlinkOther nm tg =>
      cases d with
      | true => simp [passLoop, isDirE, isFileE, isSymlinkE, ih]
      | false => simp [passLoop, isDirE, isFileE, isSymlinkE, ih]
    | other nm =>
      cases d with
      | true => simp [passLoop, isDirE, isFileE, isSymlinkE, ih]
      | false => simp [passLoop, isDirE, isFileE, isSymlinkE]

/-- Every entry list is either free of special files or splits at its first
special file, with everything before it clean. -/
theorem cleanSplit :
    ∀ (es : List FSNode), cleanEntries es = true ∨
      ∃ pre nm rest, es = pre ++ FSNode.other nm :: rest ∧ cleanEntries pre = true := by
  intro es
  induction es with
  | nil => left; rfl
  | cons c rest ih =>
    cases hc : isOther c with
    | true =>
      right
      cases c with
      | other nm => exact ⟨[], nm, rest, rfl, rfl⟩
      | file nm ct sz mt => simp [isOther] at hc
      | dir nm cs => simp [isOther] at hc
      | symlinkDir nm tg cs => simp [isOther] at hc
      | symlinkFile nm tg ct sz mt => simp [isOther] at hc
      | symlinkOther nm tg => simp [isOther] at hc
    | false =>
      rcases ih with hclean | ⟨pre, nm, rest2, hsplit, hpre⟩
      · left
        rw [cleanEntries_cons, hc, hclean]
        rfl
      · right
        refine ⟨c :: pre, nm, rest2, by simp [hsplit], ?_⟩
        rw [cleanEntries_cons, hc, hpre]
        rfl

/-- A not-done pass dies immediately on a special (non-symlink, non-file,
non-dir) entry, leaving the state as it was. -/
theorem passLoop_stops (ig : List String) (p : String) (nm : String)
    (rest : List FSNode) (acc : PassAcc) :
    passLoop ig false p (FSNode.other nm :: rest) acc =
      (acc, some "AssertionError: item.is_symlink()") := by
  simp [passLoop, isDirE, isFileE, isSymlinkE]

/-- `_scan_dir` on an already-done directory: nothing is pushed to the sink
queue, no exception escapes, and exactly the non-ignored `is_dir()`
entries are enqueued. -/
theorem scanDir_done (hash : List Nat → String) (ig dn : List String) (p : String)
    (es : List FSNode) (h : dn.contains p = true) :
    scanDir hash ig dn p es = ⟨[], enqOf ig p es, none⟩ := by
  have h' : p ∈ dn := by simpa using h
  simp [scanDir, h', passLoop_done]

/-- `_scan_dir` on a not-yet-done directory whose entries hold no special
file: the sink receives the dangling-symlink rows (in entry order), then
one file row per collected file (in entry order), then the directory row
with `len(files)`, the `is_dir()` count and the dangling-symlink count;
the non-ignored `is_dir()` entries are enqueued, and no exception
escapes. -/
theorem scanDir_clean (hash : List Nat → String) (ig dn : List String) (p : String)
    (es : List FSNode) (h : dn.contains p = false) (hc : cleanEntries es = true) :
    scanDir hash ig dn p es =
      ⟨symlinkRecsOf p es ++ (filesOf es).map (processFile hash p) ++
         [Record.dirRec p (filesOf es).length (es.countP isDirE) (es.countP isSymOther)],
       enqOf ig p es, none⟩ := by
  have h' : p ∉ dn := by simpa using h
  simp [scanDir, h', passLoop_clean ig p es hc]

/-- `_scan_dir` on a not-yet-done directory whose entry list has a special
file after a clean prefix: the pass dies at that entry having pushed only
the prefix's dangling-symlink rows and enqueued only the prefix's
directories — no file row and no directory row is ever pushed. -/
theorem scanDir_stopped (hash : List Nat → String) (ig dn : List String) (p : String)
    (pre : List FSNode) (nm : String) (rest : List FSNode)
    (h : dn.contains p = false) (hc : cleanEntries pre = true) :
    scanDir hash ig dn p (pre ++ FSNode.other nm :: rest) =
      ⟨symlinkRecsOf p pre, enqOf ig p pre, some "AssertionError: item.is_symlink()"⟩ := by
  have h' : p ∉ dn := by simpa using h
  simp [scanDir, h', passLoop_append, passLoop_clean ig p pre hc, passLoop_stops]

theorem symlinkRecsOf_mem (p : String) (es : List FSNode) (r : Record)
    (h : r ∈ symlinkRecsOf p es) :
    ∃ nm tg, FSNode.symlinkOther nm tg ∈ es ∧ r = Record.symlinkRec (pathJoin p nm) tg := by
  rcases List.mem_filterMap.mp h with ⟨c, hc, hr⟩
  cases c with
  | symlinkOther nm tg => exact ⟨nm, tg, hc, by simpa using hr.symm⟩
  | file nm ct sz mt => simp at hr
  | dir nm cs => simp at hr
  | symlinkDir nm tg cs => simp at hr
  | symlinkFile nm tg ct sz mt => simp at hr
  | other nm => simp at hr

theorem enqOf_mem (ig : List String) (p : String) (es : List FSNode)
    (pr : String × FSNode) (h : pr ∈ enqOf ig p es) :
    ∃ c ∈ es, isDirE c = true ∧ isIgnored ig (nodeName c) = false ∧
      pr = (pathJoin p (nodeName c), c) := by
  rcases List.mem_map.mp h with ⟨c, hc, hpr⟩
  rcases List.mem_filter.mp hc with ⟨hces, hcond⟩
  rcases Bool.and_eq_true_iff.mp hcond with ⟨hdir, hnig⟩
  exact ⟨c, hces, hdir, by simpa using hnig, hpr.symm⟩

/-- Every record a single `_scan_dir` call pushes is keyed either by the
scanned path itself or by the joined path of one of its non-`is_dir()`
entries. -/
theorem scanDir_emitted_key (hash : List Nat → String) (ig dn : List String)
    (p : String) (es : List FSNode) (r : Record)
    (h : r ∈ (scanDir hash ig dn p es).emitted) :
    recordKey r = p ∨
      ∃ c ∈ es, isDirE c = false ∧ recordKey r = pathJoin p (nodeName c) := by
  have keyOfSym : ∀ es', (∀ x ∈ es', x ∈ es) → r ∈ symlinkRecsOf p es' →
      recordKey r = p ∨ ∃ c ∈ es, isDirE c = false ∧ recordKey r = pathJoin p (nodeName c) := by
    intro es' hsub hr
    rcases symlinkRecsOf_mem p es' r hr with ⟨nm, tg, hmem, hrec⟩
    exact Or.inr ⟨.symlinkOther nm tg, hsub _ hmem, rfl, by simp [hrec, recordKey, nodeName]⟩
  cases hdone : dn.contains p with
  | true => rw [scanDir_done hash ig dn p es hdone] at h; simp at h
  | false =>
    rcases cleanSplit es with hc | ⟨pre, nm, rest, hsplit, hpre⟩
    · rw [scanDir_clean hash ig dn p es hdone hc] at h
      simp only [List.mem_append, List.mem_singleton] at h
      rcases h with (h | h) | h
      · exact keyOfSym es (fun _ hx => hx) h
      · rcases List.mem_map.mp h with ⟨c, hc2, hr⟩
        rcases List.mem_filter.mp hc2 with ⟨hces, hcond⟩
        rcases Bool.and_eq_true_iff.mp hcond with ⟨hnd, _⟩
        refine Or.inr ⟨c, hces, by simpa using hnd, ?_⟩
        rw [← hr]
        rfl
      · subst h; exact Or.inl rfl
    · subst hsplit
      rw [scanDir_stopped hash ig dn p pre nm rest hdone hpre] at h
      exact keyOfSym pre (fun _ hx => List.mem_append_left _ hx) h

/-- Every work-queue enqueue of a single `_scan_dir` call is a non-ignored
`is_dir()` entry of the scanned list, at its joined path. -/
theorem scanDir_enq_shape (hash : List Nat → String) (ig dn : List String)
    (p : String) (es : List FSNode) (pr : String × FSNode)
    (h : pr ∈ (scanDir hash ig dn p es).enq) :
    ∃ c ∈ es, isDirE c = true ∧ isIgnored ig (nodeName c) = false ∧
      pr = (pathJoin p (nodeName c), c) := by
  cases hdone : dn.contains p with
  | true =>
    rw [scanDir_done hash ig dn p es hdone] at h
    exact enqOf_mem ig p es pr h
  | false =>
    rcases cleanSplit es with hc | ⟨pre, nm, rest, hsplit, hpre⟩
    · rw [scanDir_clean hash ig dn p es hdone hc] at h
      exact enqOf_mem ig p es pr h
    · subst hsplit
      rw [scanDir_stopped hash ig dn p pre nm rest hdone hpre] at h
      rcases enqOf_mem ig p pre pr h with ⟨c, hces, h1, h2, h3⟩
      exact ⟨c, List.mem_append_left _ hces, h1, h2, h3⟩

theorem childSize {m n : FSNode} (h : m ∈ childrenOf n) : sizeOf m < sizeOf n := by
  cases n with
  | dir nm cs =>
    simp only [childrenOf] at h
    have := List.sizeOf_lt_of_mem h
    simp only [FSNode.dir.sizeOf_spec]
    omega
  | symlinkDir nm tg cs =>
    simp only [childrenOf] at h
    have := List.sizeOf_lt_of_mem h
    simp only [FSNode.symlinkDir.sizeOf_spec]
    omega
  | file nm ct sz mt => simp [childrenOf] at h
  | symlinkFile nm tg ct sz mt => simp [childrenOf] at h
  | symlinkOther nm tg => simp [childrenOf] at h
  | other nm => simp [childrenOf] at h

theorem scanDir_enq_size (hash : List Nat → String) (ig dn : List String)
    (p : String) (n : FSNode) :
    ∀ pr ∈ (scanDir hash ig dn p (childrenOf n)).enq, sizeOf pr.2 < sizeOf n := by
  intro pr h
  rcases scanDir_enq_shape hash ig dn p (childrenOf n) pr h with ⟨c, hces, _, _, h3⟩
  subst h3
  exact childSize hces

/-- A sequential run of the scanner over the subtree rooted at `n`, whose
children live at absolute path `p`: perform `n`'s pass, let the worker
loop record the failure if the pass died, and process every enqueued
subdirectory.  This is the full record list a completed run contributes
for the subtree (record order across directories is irrelevant to every
property stated about it). -/
def runTree (hash : List Nat → String) (ig dn : List String) (p : String) (n : FSNode) :
    List Record :=
  let res := scanDir hash ig dn p (childrenOf n)
  res.emitted ++
    (match res.err with
      | some e => [Record.failureRec p e]
      | none => []) ++
    (res.enq.pmap (fun pr (_ : sizeOf pr.2 < sizeOf n) => runTree hash ig dn pr.1 pr.2)
      (scanDir_enq_size hash ig dn p n)).flatten
termination_by sizeOf n
decreasing_by assumption

/-- Unfolding equation for `runTree` with the proof-carrying map replaced
by a plain map. -/
theorem runTree_eq (hash : List Nat → String) (ig dn : List String) (p : String)
    (n : FSNode) :
    runTree hash ig dn p n =
      (scanDir hash ig dn p (childrenOf n)).emitted ++
        (match (scanDir hash ig dn p (childrenOf n)).err with
          | some e => [Record.failureRec p e]
          | none => []) ++
        ((scanDir hash ig dn p (childrenOf n)).enq.map
          (fun pr => runTree hash ig dn pr.1 pr.2)).flatten := by
  rw [runTree]
  rw [List.pmap_eq_map]

/- ### Path and string facts -/

theorem strToList_append (a b : String) : (a ++ b).toList = a.toList ++ b.toList := by
  cases a
  cases b
  rfl

theorem strToList_inj {a b : String} (h : a.toList = b.toList) : a = b := by
  cases a with
  | mk da =>
    cases b with
    | mk db =>
      simp only [String.toList, String.data] at h
      simp [h]

theorem pathJoin_toList (p n : String) :
    (pathJoin p n).toList = p.toList ++ '/' :: n.toList := by
  simp [pathJoin, strToList_append]

theorem pathJoin_inj {p a b : String} (h : pathJoin p a = pathJoin p b) : a = b := by
  apply strToList_inj
  have h1 := congrArg String.toList h
  rw [pathJoin_toList, pathJoin_toList] at h1
  have h2 := List.append_cancel_left h1
  simp only [List.cons.injEq, true_and] at h2
  exact h2

/-- Two slash-free components followed by a slash occupy the same positions
of a common path, so they coincide. -/
theorem slashEq : ∀ (x y u v : List Char), '/' ∉ x → '/' ∉ y →
    x ++ '/' :: u = y ++ '/' :: v → x = y := by
  intro x
  induction x with
  | nil =>
    intro y u v _ hy h
    cases y with
    | nil => rfl
    | cons d ys =>
      simp only [List.nil_append, List.cons_append, List.cons.injEq] at h
      exact absurd (by rw [h.1]; exact List.mem_cons_self d ys) hy
  | cons c xs ih =>
    intro y u v hx hy h
    cases y with
    | nil =>
      simp only [List.cons_append, List.nil_append, List.cons.injEq] at h
      exact absurd (by rw [← h.1]; exact List.mem_cons_self c xs) hx
    | cons d ys =>
      simp only [List.cons_append, List.cons.injEq] at h
      have hxs : '/' ∉ xs := fun hm => hx (List.mem_cons_of_mem c hm)
      have hys : '/' ∉ ys := fun hm => hy (List.mem_cons_of_mem d hm)
      rw [h.1, ih ys u v hxs hys h.2]

/-- The subtree-containment relation on absolute paths: `k` is `root`
itself or lies strictly below it (`root ++ "/"` starts `k`). -/
def strUnder (root k : String) : Prop :=
  k = root ∨ ∃ t, root.toList ++ '/' :: t = k.toList

theorem fsSizePos (n : FSNode) : 1 ≤ sizeOf n := by
  cases n with
  | file nm ct sz mt => simp only [FSNode.file.sizeOf_spec]; omega
  | dir nm cs => simp only [FSNode.dir.sizeOf_spec]; omega
  | symlinkDir nm tg cs => simp only [FSNode.symlinkDir.sizeOf_spec]; omega
  | symlinkFile nm tg ct sz mt => simp only [FSNode.symlinkFile.sizeOf_spec]; omega
  | symlinkOther nm tg => simp only [FSNode.symlinkOther.sizeOf_spec]; omega
  | other nm => simp only [FSNode.other.sizeOf_spec]; omega

/-- Every key a whole-subtree run emits is either the root path itself or
lies strictly below it. -/
theorem runTree_key_shape : ∀ (N : Nat) (n : FSNode), sizeOf n ≤ N →
    ∀ (hash : List Nat → String) (ig dn : List String) (p k : String),
      k ∈ keysOf (runTree hash ig dn p n) →
      k = p ∨ ∃ t, p.toList ++ '/' :: t = k.toList := by
  intro N
  induction N with
  | zero =>
    intro n hn
    exact absurd hn (by have := fsSizePos n; omega)
  | succ N ih =>
    intro n hn hash ig dn p k hk
    rw [runTree_eq] at hk
    simp only [keysOf, List.map_append, List.mem_append] at hk
    rcases hk with (hk | hk) | hk
    · rcases List.mem_map.mp hk with ⟨r, hr, hkey⟩
      rcases scanDir_emitted_key hash ig dn p (childrenOf n) r hr with h | ⟨c, _, _, hkeyj⟩
      · left; rw [← hkey, h]
      · right
        refine ⟨(nodeName c).toList, ?_⟩
        rw [← hkey, hkeyj, pathJoin_toList]
    · cases herr : (scanDir hash ig dn p (childrenOf n)).err with
      | some e =>
        rw [herr] at hk
        simp only [List.map_cons, List.map_nil, List.mem_singleton] at hk
        left; rw [hk]; rfl
      | none => rw [herr] at hk; simp at hk
    · rcases List.mem_map.mp hk with ⟨r, hr, hkey⟩
      rcases List.mem_flatten.mp hr with ⟨sub, hsub, hrsub⟩
      rcases List.mem_map.mp hsub with ⟨pr, hpr, hprsub⟩
      rcases scanDir_enq_shape hash ig dn p (childrenOf n) pr hpr with ⟨c, hces, _, _, hprshape⟩
      have hp1 : pr.1 = pathJoin p (nodeName c) := by rw [hprshape]
      have hp2 : pr.2 = c := by rw [hprshape]
      have hsize : sizeOf pr.2 ≤ N := by
        have h1 : sizeOf pr.2 < sizeOf n := by rw [hp2]; exact childSize hces
        omega
      have hkmem : k ∈ keysOf (runTree hash ig dn pr.1 pr.2) := by
        rw [← hprsub] at hrsub
        rw [← hkey]
        exact List.mem_map_of_mem recordKey hrsub
      rcases ih pr.2 hsize hash ig dn pr.1 k hkmem with h | ⟨t, ht⟩
      · right
        refine ⟨(nodeName c).toList, ?_⟩
        rw [h, hp1, pathJoin_toList]
      · right
        refine ⟨(nodeName c).toList ++ '/' :: t, ?_⟩
        rw [hp1] at ht
        rw [← ht, pathJoin_toList]
        simp [List.append_assoc]

/- ### Facts about the extension computation -/

theorem pySplit_ne_nil (sep : Char) : ∀ l : List Char, pySplit sep l ≠ [] := by
  intro l
  cases l with
  | nil => simp [pySplit]
  | cons c cs =>
    simp only [pySplit]
    split <;> simp

theorem pySplit_no_sep (sep : Char) :
    ∀ l : List Char, sep ∉ l → pySplit sep l = [l] := by
  intro l
  induction l with
  | nil => intro; rfl
  | cons c cs ih =>
    intro h
    simp only [List.mem_cons, not_or] at h
    have hc : (c == sep) = false := by
      simp only [beq_eq_false_iff_ne, ne_eq]
      exact fun he => h.1 (he ▸ rfl)
    simp [pySplit, hc, ih h.2]

theorem pySplit_len2 (sep : Char) :
    ∀ l : List Char, sep ∈ l → 2 ≤ (pySplit sep l).length := by
  intro l
  induction l with
  | nil => intro h; simp at h
  | cons c cs ih =>
    intro h
    by_cases hc : c = sep
    · subst hc
      have h1 : 1 ≤ (pySplit c cs).length :=
        List.length_pos.mpr (pySplit_ne_nil c cs)
      rw [show pySplit c (c :: cs) = [] :: pySplit c cs from by simp [pySplit]]
      simp only [List.length_cons]
      omega
    · have hcs : sep ∈ cs := by
        rcases List.mem_cons.mp h with h1 | h1
        · exact absurd h1.symm hc
        · exact h1
      have h2 := ih hcs
      have hcb : (c == sep) = false := by
        simp only [beq_eq_false_iff_ne, ne_eq]; exact hc
      have h3 : (pySplit sep cs).tail.length = (pySplit sep cs).length - 1 :=
        List.length_tail _
      rw [show pySplit sep (c :: cs) =
        (c :: (pySplit sep cs).headD []) :: (pySplit sep cs).tail from by simp [pySplit, hcb]]
      simp only [List.length_cons]
      omega

theorem lastSeg_cons_of_mem (c : Char) (cs : List Char) (h : '.' ∈ cs) :
    lastSeg (c :: cs) = lastSeg cs := by
  by_cases hc : c = '.'
  · subst hc
    rcases hr : pySplit '.' cs with _ | ⟨a, t⟩
    · exact absurd hr (pySplit_ne_nil '.' cs)
    · simp [lastSeg, pySplit, hr, List.getLastD_cons]
  · have hcb : (c == '.') = false := by
      simp only [beq_eq_false_iff_ne, ne_eq]; exact hc
    have h2 := pySplit_len2 '.' cs h
    rcases hr : pySplit '.' cs with _ | ⟨a, _ | ⟨b, t⟩⟩
    · exact absurd hr (pySplit_ne_nil '.' cs)
    · rw [hr] at h2; simp at h2
    · simp [lastSeg, pySplit, hcb, hr, List.getLastD_cons]

theorem lastSeg_dot_last (cs : List Char) (h : '.' ∉ cs) :
    lastSeg ('.' :: cs) = cs := by
  simp [lastSeg, pySplit, pySplit_no_sep '.' cs h, List.getLastD_cons]

theorem extList_cons_of_mem (c : Char) (cs : List Char) (h : '.' ∈ cs) :
    extList (c :: cs) = extList cs := by
  simp [extList, h, List.mem_cons, lastSeg_cons_of_mem c cs h]

theorem extList_dot (cs : List Char) (h : '.' ∉ cs) : extList ('.' :: cs) = cs := by
  simp [extList, List.mem_cons, lastSeg_dot_last cs h]

/-- The code's `name.split('.')[-1]` computes exactly the suffix after the
last dot: a dot-free tail preceded by a dot, when the name has a dot at
all, and the empty string otherwise. -/
theorem extListSound : ∀ l : List Char,
    ('.' ∈ l → ∃ pre, l = pre ++ '.' :: extList l ∧ '.' ∉ extList l) ∧
    ('.' ∉ l → extList l = []) := by
  intro l
  induction l with
  | nil =>
    constructor
    · intro h; simp at h
    · intro; rfl
  | cons c cs ih =>
    constructor
    · intro hmem
      by_cases hcs : '.' ∈ cs
      · have he := extList_cons_of_mem c cs hcs
        rcases ih.1 hcs with ⟨pre, hsplit, hnot⟩
        refine ⟨c :: pre, ?_, ?_⟩
        · rw [he, List.cons_append, ← hsplit]
        · rw [he]; exact hnot
      · have hc : c = '.' := by
          rcases List.mem_cons.mp hmem with h1 | h1
          · exact h1.symm
          · exact absurd h1 hcs
        subst hc
        have he := extList_dot cs hcs
        exact ⟨[], by rw [he]; rfl, by rw [he]; exact hcs⟩
    · intro hn
      simp [extList, hn]

/- ### Claim theorems -/

/-- Claim C8: for every regular file processed, the stored extension is the
substring of the base name after the last dot when the name contains at
least one dot (a dot-free suffix preceded by a dot), and the empty string
otherwise; in particular a dot-prefixed name with no other dot, such as
`.gitignore`, is recorded with its dotless remainder as extension.  The
last conjunct ties the computation to the FileRecord `_process_file`
builds. -/
theorem claim8_thm (name : List Char) :
    ('.' ∈ name → ∃ pre, name = pre ++ '.' :: extList name ∧ '.' ∉ extList name) ∧
    ('.' ∉ name → extList name = []) ∧
    extensionOf ".gitignore" = "gitignore" ∧
    (∀ (hash : List Nat → String) (p : String) (item : FSNode),
      processFile hash p item =
        Record.fileRec (pathJoin p (nodeName item)) (nodeName item)
          (dirnameOf (pathJoin p (nodeName item))) (extensionOf (nodeName item))
          (statSize item) (statMtime item) (hash (contentOf item))) := by
  refine ⟨(extListSound name).1, (extListSound name).2, by decide, ?_⟩
  intro hash p item
  rfl

/-- Witness for C8 at the concrete name `a.b.c`. -/
theorem claim8_witness :
    ∃ pre, ['a', '.', 'b', '.', 'c'] = pre ++ '.' :: extList ['a', '.', 'b', '.', 'c'] ∧
      '.' ∉ extList ['a', '.', 'b', '.', 'c'] :=
  (claim8_thm ['a', '.', 'b', '.', 'c']).1 (by decide)

/-- Claim C2 is false on the code: the record emitters push with
`put_nowait`, which raises `queue.Full` on a full bounded sink queue
instead of blocking.  Concretely, a bounded queue of capacity 1 holding
one operation rejects the next file record with an error. -/
theorem claim2_cex :
    DB.record_file ⟨1, [("replace into symlinks values (?, ?)", [.s "/q/a", .s "t"])]⟩
      "/q/b.jpg" "b.jpg" "/q" "jpg" 10 0 "d41d8cd9" = .error "queue.Full" := rfl

/-- Claim C2 (corrected): on a full bounded sink queue every `DB.record_*`
emitter fails immediately with `queue.Full` (no blocking back-pressure);
when the queue is not full the operation descriptor is appended. -/
theorem claim2_amended (q : SinkQueue) :
    (sinkFull q = true →
      (∀ a b c d sz mt md, DB.record_file q a b c d sz mt md = .error "queue.Full") ∧
      (∀ a fc dc sc now, DB.record_directory q a fc dc sc now = .error "queue.Full") ∧
      (∀ a t, DB.record_symlink q a t = .error "queue.Full") ∧
      (∀ a m now, DB.record_failure q a m now = .error "queue.Full")) ∧
    (sinkFull q = false →
      ∀ a b c d sz mt md, DB.record_file q a b c d sz mt md =
        .ok ⟨q.maxsize, q.items ++ [("replace into files values (?, ?, ?, ?, ?, ?, ?)",
          [.s a, .s b, .s c, .s d, .n sz, .i mt, .s md])]⟩) := by
  constructor
  · intro hfull
    refine ⟨?_, ?_, ?_, ?_⟩ <;> intros <;>
      simp [DB.record_file, DB.record_directory, DB.record_symlink, DB.record_failure,
        putNowait, hfull]
  · intro hnot
    intros
    simp [DB.record_file, putNowait, hnot]

/-- Witness for C2 at a concrete full queue and a concrete queue with
room. -/
theorem claim2_witness :
    DB.record_symlink ⟨1, [("replace into files values (?, ?, ?, ?, ?, ?, ?)",
        [.s "/w", .s "w", .s "/", .s "", .n 0, .i 0, .s "x"])]⟩ "/w/l" "tg" =
      .error "queue.Full" ∧
    DB.record_file ⟨2, []⟩ "/w/c.png" "c.png" "/w" "png" 3 7 "ab" =
      .ok ⟨2, [("replace into files values (?, ?, ?, ?, ?, ?, ?)",
        [.s "/w/c.png", .s "c.png", .s "/w", .s "png", .n 3, .i 7, .s "ab"])]⟩ :=
  ⟨((claim2_amended ⟨1, [("replace into files values (?, ?, ?, ?, ?, ?, ?)",
        [.s "/w", .s "w", .s "/", .s "", .n 0, .i 0, .s "x"])]⟩).1 (by decide)).2.2.1 "/w/l" "tg",
   (claim2_amended ⟨2, []⟩).2 (by decide) "/w/c.png" "c.png" "/w" "png" 3 7 "ab"⟩

/-- Claim C9: ignore patterns are consulted only for `is_dir()` entries —
what a pass pushes to the sink queue (and whether it dies) is identical to
a pass with no ignore patterns at all; only the work-queue enqueues can
differ.  In particular an ignore-matched regular file or symlink is hashed
and recorded exactly as if no pattern matched. -/
theorem claim9_thm (hash : List Nat → String) (ig dn : List String) (p : String)
    (es : List FSNode) :
    (scanDir hash ig dn p es).emitted = (scanDir hash [] dn p es).emitted ∧
    (scanDir hash ig dn p es).err = (scanDir hash [] dn p es).err := by
  cases hdone : dn.contains p with
  | true =>
    rw [scanDir_done hash ig dn p es hdone, scanDir_done hash [] dn p es hdone]
    exact ⟨rfl, rfl⟩
  | false =>
    rcases cleanSplit es with hc | ⟨pre, nm, rest, hsplit, hpre⟩
    · rw [scanDir_clean hash ig dn p es hdone hc, scanDir_clean hash [] dn p es hdone hc]
      exact ⟨rfl, rfl⟩
    · subst hsplit
      rw [scanDir_stopped hash ig dn p pre nm rest hdone hpre,
        scanDir_stopped hash [] dn p pre nm rest hdone hpre]
      exact ⟨rfl, rfl⟩

/-- Whether a record is a FailureRecord keyed by `D`. -/
def failureFor (D : String) : Record → Bool
  | .failureRec p _ => p == D
  | _ => false

theorem workerLoop_append (scan : String → List Record × Option String) :
    ∀ l1 l2 : List String,
      workerLoop scan (l1 ++ l2) = workerLoop scan l1 ++ workerLoop scan l2 := by
  intro l1
  induction l1 with
  | nil => intro l2; simp [workerLoop]
  | cons p rest ih => intro l2; simp [workerLoop, ih, List.append_assoc]

theorem workerLoop_no_failure (scan : String → List Record × Option String)
    (D : String) (hnf : ∀ p r, r ∈ (scan p).1 → failureFor D r = false) :
    ∀ q : List String, (∀ p ∈ q, p ≠ D) →
      (workerLoop scan q).countP (failureFor D) = 0 := by
  intro q
  induction q with
  | nil => intro; simp [workerLoop]
  | cons p rest ih =>
    intro hq
    have hp : p ≠ D := hq p (List.mem_cons_self p rest)
    have hrest : ∀ x ∈ rest, x ≠ D := fun x hx => hq x (List.mem_cons_of_mem p hx)
    have hscan : ((scan p).1).countP (failureFor D) = 0 :=
      List.countP_eq_zero.mpr (fun r hr => by simp [hnf p r hr])
    cases he : (scan p).2 with
    | some e =>
      simp [workerLoop, he, List.countP_append, hscan, ih hrest, List.countP_cons,
        failureFor, hp]
    | none =>
      simp [workerLoop, he, List.countP_append, hscan, ih hrest]

/-- Claim C6: for any scan behaviour, a dequeued directory whose scan dies
with an error contributes whatever it pushed before dying plus exactly one
FailureRecord for itself, and the loop then continues with the remaining
queue items unchanged — one bad directory never halts the worker. -/
theorem claim6_thm (scan : String → List Record × Option String)
    (q1 q2 : List String) (D e : String)
    (hD : (scan D).2 = some e) (h1 : D ∉ q1) (h2 : D ∉ q2)
    (hnf : ∀ p r, r ∈ (scan p).1 → failureFor D r = false) :
    workerLoop scan (q1 ++ D :: q2) =
      workerLoop scan q1 ++ (scan D).1 ++ [Record.failureRec D e] ++ workerLoop scan q2 ∧
    (workerLoop scan (q1 ++ D :: q2)).countP (failureFor D) = 1 := by
  have hmain : workerLoop scan (q1 ++ D :: q2) =
      workerLoop scan q1 ++ (scan D).1 ++ [Record.failureRec D e] ++ workerLoop scan q2 := by
    rw [workerLoop_append]
    simp [workerLoop, hD, List.append_assoc]
  refine ⟨hmain, ?_⟩
  rw [hmain]
  have hz1 := workerLoop_no_failure scan D hnf q1 (fun p hp => fun hpD => h1 (hpD ▸ hp))
  have hz2 := workerLoop_no_failure scan D hnf q2 (fun p hp => fun hpD => h2 (hpD ▸ hp))
  have hzD : ((scan D).1).countP (failureFor D) = 0 :=
    List.countP_eq_zero.mpr (fun r hr => by simp [hnf D r hr])
  simp [List.countP_append, hz1, hz2, hzD, List.countP_cons, failureFor]

/-- Witness for C6: a concrete scan that dies on `/bad` still lets the
loop process the whole queue, leaving exactly one failures row for
`/bad`. -/
theorem claim6_witness :
    workerLoop (fun p => ([], if p == "/bad" then some "perm denied" else none))
        (["/ok1"] ++ "/bad" :: ["/ok2"]) =
      workerLoop (fun p => ([], if p == "/bad" then some "perm denied" else none)) ["/ok1"] ++
        (([] : List Record) ++ [Record.failureRec "/bad" "perm denied"] ++
          workerLoop (fun p => ([], if p == "/bad" then some "perm denied" else none)) ["/ok2"]) ∧
    (workerLoop (fun p => ([], if p == "/bad" then some "perm denied" else none))
        (["/ok1"] ++ "/bad" :: ["/ok2"])).countP (failureFor "/bad") = 1 := by
  have h := claim6_thm (fun p => ([], if p == "/bad" then some "perm denied" else none))
    ["/ok1"] ["/ok2"] "/bad" "perm denied" (by decide) (by decide) (by decide)
    (by intro p r hr; simp at hr)
  exact ⟨by rw [h.1]; simp [List.append_assoc], h.2⟩

/-- Claim C7: within a single successful pass over a not-yet-done
directory, the directory's own record is pushed last: the sink-queue
sequence is some front consisting only of FileRecords and SymlinkRecords,
followed by exactly the DirectoryRecord. -/
theorem claim7_thm (hash : List Nat → String) (ig dn : List String) (p : String)
    (es : List FSNode) (h : dn.contains p = false) (hc : cleanEntries es = true) :
    ∃ front, (scanDir hash ig dn p es).emitted =
        front ++ [Record.dirRec p (filesOf es).length (es.countP isDirE) (es.countP isSymOther)] ∧
      ∀ r ∈ front, isFileRec r = true ∨ isSymlinkRec r = true := by
  rw [scanDir_clean hash ig dn p es h hc]
  refine ⟨symlinkRecsOf p es ++ (filesOf es).map (processFile hash p),
    by simp [List.append_assoc], ?_⟩
  intro r hr
  rcases List.mem_append.mp hr with hr | hr
  · rcases symlinkRecsOf_mem p es r hr with ⟨nm, tg, _, hrec⟩
    right
    rw [hrec]
    rfl
  · rcases List.mem_map.mp hr with ⟨c, _, hrec⟩
    left
    rw [← hrec]
    rfl

/-- Witness for C7 at a concrete pass with one file and one dangling
symlink. -/
theorem claim7_witness :
    ∃ front,
      (scanDir (fun _ => "W7") [] [] "/w7"
          [FSNode.symlinkOther "l" "t", FSNode.file "f.gif" [5] 1 2]).emitted =
        front ++ [Record.dirRec "/w7"
          (filesOf [FSNode.symlinkOther "l" "t", FSNode.file "f.gif" [5] 1 2]).length
          ([FSNode.symlinkOther "l" "t", FSNode.file "f.gif" [5] 1 2].countP isDirE)
          ([FSNode.symlinkOther "l" "t", FSNode.file "f.gif" [5] 1 2].countP isSymOther)] ∧
      ∀ r ∈ front, isFileRec r = true ∨ isSymlinkRec r = true :=
  claim7_thm (fun _ => "W7") [] [] "/w7"
    [FSNode.symlinkOther "l" "t", FSNode.file "f.gif" [5] 1 2] (by decide) (by decide)

/-- The worked example for C10: a dangling symlink, then a FIFO, then a
regular file. -/
def demoSpecial : List FSNode :=
  [FSNode.symlinkOther "l" "tgt", FSNode.other "fifo", FSNode.file "x" [9] 1 0]

/-- Claim C10: when every entry of a scanned directory is a directory, a
regular file or a symlink, the pass never dies on the `is_symlink`
assertion; a pass over a directory holding any other kind of entry (FIFO,
socket) dies at that entry — the symlink rows already pushed stay pushed,
no file row and no directory row is pushed, and the worker loop records
exactly one FailureRecord for the directory. -/
theorem claim10_thm (hash : List Nat → String) (ig dn : List String) (p : String)
    (es : List FSNode) (hc : cleanEntries es = true) :
    (scanDir hash ig dn p es).err = none ∧
    ((scanDir (fun _ => "X") [] [] "/f" demoSpecial).emitted =
        [Record.symlinkRec "/f/l" "tgt"] ∧
      (scanDir (fun _ => "X") [] [] "/f" demoSpecial).err =
        some "AssertionError: item.is_symlink()" ∧
      workerLoop (fun q => ((scanDir (fun _ => "X") [] [] q demoSpecial).emitted,
          (scanDir (fun _ => "X") [] [] q demoSpecial).err)) ["/f"] =
        [Record.symlinkRec "/f/l" "tgt",
         Record.failureRec "/f" "AssertionError: item.is_symlink()"]) := by
  refine ⟨?_, by decide, by decide, by decide⟩
  cases hdone : dn.contains p with
  | true => rw [scanDir_done hash ig dn p es hdone]
  | false => rw [scanDir_clean hash ig dn p es hdone hc]

/-- Witness for C10 at a concrete clean entry list (a directory, a file
and a dangling symlink). -/
theorem claim10_witness :
    (scanDir (fun _ => "Y") [] [] "/w10"
        [FSNode.dir "d" [], FSNode.file "g.txt" [1] 1 0,
         FSNode.symlinkOther "s" "u"]).err = none :=
  (claim10_thm (fun _ => "Y") [] [] "/w10"
    [FSNode.dir "d" [], FSNode.file "g.txt" [1] 1 0, FSNode.symlinkOther "s" "u"]
    (by decide)).1

/-- Claim C1 is false on the code: `is_dir()`/`is_file()` follow symlinks,
so a symlink to a regular file is hashed and recorded as a FileRecord and
a symlink to a directory is enqueued for descent; neither yields a
SymlinkRecord. -/
theorem claim1_cex :
    (scanDir (fun _ => "HH") [] [] "/c1"
        [FSNode.symlinkFile "s" "t" [1, 2] 2 0, FSNode.symlinkDir "d" "u" []]).emitted =
      [Record.fileRec "/c1/s" "s" "/c1" "" 2 0 "HH", Record.dirRec "/c1" 1 1 0] ∧
    (∀ r ∈ (scanDir (fun _ => "HH") [] [] "/c1"
        [FSNode.symlinkFile "s" "t" [1, 2] 2 0, FSNode.symlinkDir "d" "u" []]).emitted,
      isSymlinkRec r = false) ∧
    (scanDir (fun _ => "HH") [] [] "/c1"
        [FSNode.symlinkFile "s" "t" [1, 2] 2 0, FSNode.symlinkDir "d" "u" []]).enq.map
      Prod.fst = ["/c1/d"] := by
  exact ⟨by decide, by decide, by decide⟩

/-- Claim C1 (corrected): in a not-done pass only a symlink resolving to
neither a directory nor a regular file yields a SymlinkRecord (carrying
the raw readlink target); a symlink resolving to a regular file is stat'd
and hashed like a file, yielding a FileRecord whose digest fingerprints
the target's bytes; a symlink resolving to a directory is counted as a
directory and, when not ignore-matched, enqueued for recursive descent. -/
theorem claim1_amended (hash : List Nat → String) (ig dn : List String) (p : String)
    (es : List FSNode) (h : dn.contains p = false) (hc : cleanEntries es = true) :
    (∀ nm tg ct sz mt, FSNode.symlinkFile nm tg ct sz mt ∈ es →
      Record.fileRec (pathJoin p nm) nm (dirnameOf (pathJoin p nm)) (extensionOf nm)
          sz mt (hash ct) ∈ (scanDir hash ig dn p es).emitted) ∧
    (∀ nm tg cs, FSNode.symlinkDir nm tg cs ∈ es → isIgnored ig nm = false →
      (pathJoin p nm, FSNode.symlinkDir nm tg cs) ∈ (scanDir hash ig dn p es).enq) ∧
    ((scanDir hash ig dn p es).emitted.filter isSymlinkRec = symlinkRecsOf p es) ∧
    (∀ k t, Record.symlinkRec k t ∈ (scanDir hash ig dn p es).emitted →
      ∃ nm, FSNode.symlinkOther nm t ∈ es ∧ k = pathJoin p nm) := by
  rw [scanDir_clean hash ig dn p es h hc]
  refine ⟨?_, ?_, ?_, ?_⟩
  · intro nm tg ct sz mt hmem
    simp only [List.mem_append]
    left; right
    refine List.mem_map.mpr ⟨FSNode.symlinkFile nm tg ct sz mt, ?_, rfl⟩
    refine List.mem_filter.mpr ⟨hmem, rfl⟩
  · intro nm tg cs hmem hig
    refine List.mem_map.mpr ⟨FSNode.symlinkDir nm tg cs, ?_, rfl⟩
    refine List.mem_filter.mpr ⟨hmem, ?_⟩
    simp [isDirE, nodeName, hig]
  · rw [List.filter_append, List.filter_append]
    rw [List.filter_eq_self.mpr
      (fun r hr => by
        rcases symlinkRecsOf_mem p es r hr with ⟨nm, tg, _, hrec⟩
        rw [hrec]; rfl)]
    rw [List.filter_eq_nil_iff.mpr
      (fun r hr => by
        rcases List.mem_map.mp hr with ⟨c, _, hrec⟩
        rw [← hrec]; simp [processFile, isSymlinkRec])]
    rw [show List.filter isSymlinkRec
        [Record.dirRec p (filesOf es).length (es.countP isDirE) (es.countP isSymOther)] =
      [] from rfl]
    simp
  · intro k t hmem
    simp only [List.mem_append] at hmem
    rcases hmem with (hmem | hmem) | hmem
    · rcases symlinkRecsOf_mem p es _ hmem with ⟨nm, tg2, hso, hrec⟩
      rw [Record.symlinkRec.injEq] at hrec
      exact ⟨nm, by rw [hrec.2]; exact hso, hrec.1⟩
    · rcases List.mem_map.mp hmem with ⟨c, _, hrec⟩
      exact absurd hrec (by simp [processFile])
    · simp at hmem

/-- Witness for C1 at a pass containing each symlink kind. -/
theorem claim1_witness :
    Record.fileRec (pathJoin "/w1" "sf") "sf" (dirnameOf (pathJoin "/w1" "sf"))
        (extensionOf "sf") 2 3 ((fun _ => "W1") [8, 8]) ∈
      (scanDir (fun _ => "W1") [] [] "/w1"
        [FSNode.symlinkFile "sf" "t" [8, 8] 2 3, FSNode.symlinkDir "sd" "u" [],
         FSNode.symlinkOther "so" "v"]).emitted ∧
    (pathJoin "/w1" "sd", FSNode.symlinkDir "sd" "u" []) ∈
      (scanDir (fun _ => "W1") [] [] "/w1"
        [FSNode.symlinkFile "sf" "t" [8, 8] 2 3, FSNode.symlinkDir "sd" "u" [],
         FSNode.symlinkOther "so" "v"]).enq :=
  ⟨(claim1_amended (fun _ => "W1") [] [] "/w1"
      [FSNode.symlinkFile "sf" "t" [8, 8] 2 3, FSNode.symlinkDir "sd" "u" [],
       FSNode.symlinkOther "so" "v"] (by decide) (by decide)).1 "sf" "t" [8, 8] 2 3
      (List.mem_cons_self _ _),
   (claim1_amended (fun _ => "W1") [] [] "/w1"
      [FSNode.symlinkFile "sf" "t" [8, 8] 2 3, FSNode.symlinkDir "sd" "u" [],
       FSNode.symlinkOther "so" "v"] (by decide) (by decide)).2.1 "sd" "u" []
      (List.mem_cons_of_mem _ (List.mem_cons_self _ _)) (by decide)⟩

/-- The spec's concrete scenario: root `R` holds `a.jpg` (10 bytes) and a
subdirectory `S` holding `b.png`. -/
def demoBytesA : List Nat := [1, 2, 3, 4, 5, 6, 7, 8, 9, 10]

def demoBytesB : List Nat := [7, 7, 7, 7]

def demoTreeS : FSNode := FSNode.dir "S" [FSNode.file "b.png" demoBytesB 4 200]

def demoTreeR : FSNode :=
  FSNode.dir "R" [FSNode.file "a.jpg" demoBytesA 10 100, demoTreeS]

/-- Claim C3 is false on the code as universally stated: a symlink to a
directory is tallied in `dir_count`, not `symlink_count`, so the recorded
counts differ from the per-kind tally of the direct entries. -/
theorem claim3_cex :
    (scanDir (fun _ => "H3") [] [] "/c3" [FSNode.symlinkDir "d" "t" []]).emitted =
      [Record.dirRec "/c3" 0 1 0] ∧
    specSymlinkTally [FSNode.symlinkDir "d" "t" []] = 1 ∧
    specDirTally [FSNode.symlinkDir "d" "t" []] = 0 := by decide

/-- Claim C3 (corrected): a successful not-done pass emits exactly one
DirectoryRecord, whose counts tally the direct entries as scandir
classifies them — `file_count` counts `is_file()` non-`is_dir()` entries,
`dir_count` counts `is_dir()` entries (symlinks to directories included),
`symlink_count` counts only symlinks resolving to neither.  For trees
without symlinks this is the per-kind tally, and the spec's concrete
scenario holds exactly as stated, with digests fingerprinting each file's
bytes. -/
theorem claim3_amended (hash : List Nat → String) (ig dn : List String) (p : String)
    (es : List FSNode) (h : dn.contains p = false) (hc : cleanEntries es = true) :
    ((scanDir hash ig dn p es).emitted.countP isDirRec = 1) ∧
    Record.dirRec p (filesOf es).length (es.countP isDirE) (es.countP isSymOther) ∈
      (scanDir hash ig dn p es).emitted ∧
    (∀ hash2 : List Nat → String,
      runTree hash2 [] [] "/R" demoTreeR =
        [Record.fileRec "/R/a.jpg" "a.jpg" "/R" "jpg" 10 100 (hash2 demoBytesA),
         Record.dirRec "/R" 1 1 0,
         Record.fileRec "/R/S/b.png" "b.png" "/R/S" "png" 4 200 (hash2 demoBytesB),
         Record.dirRec "/R/S" 1 0 0]) := by
  rw [scanDir_clean hash ig dn p es h hc]
  refine ⟨?_, by simp, ?_⟩
  · rw [List.countP_append, List.countP_append]
    rw [List.countP_eq_zero.mpr (fun r hr => by
      rcases symlinkRecsOf_mem p es r hr with ⟨nm, tg, _, hrec⟩
      rw [hrec]; simp [isDirRec])]
    rw [List.countP_eq_zero.mpr (fun r hr => by
      rcases List.mem_map.mp hr with ⟨c, _, hrec⟩
      rw [← hrec]; simp [processFile, isDirRec])]
    rfl
  · intro hash2
    have hs1 : scanDir hash2 [] [] "/R" (childrenOf demoTreeR) =
        ⟨[Record.fileRec "/R/a.jpg" "a.jpg" "/R" "jpg" 10 100 (hash2 demoBytesA),
          Record.dirRec "/R" 1 1 0],
         [("/R/S", demoTreeS)], none⟩ := rfl
    have hrS : runTree hash2 [] [] "/R/S" demoTreeS =
        [Record.fileRec "/R/S/b.png" "b.png" "/R/S" "png" 4 200 (hash2 demoBytesB),
         Record.dirRec "/R/S" 1 0 0] := by
      rw [runTree_eq]
      rfl
    rw [runTree_eq, hs1]
    simp only [List.map_cons, List.map_nil, List.flatten]
    rw [hrS]
    simp

/-- Witness for C3 at a concrete pass holding one file and one
subdirectory. -/
theorem claim3_witness :
    (scanDir (fun _ => "W3") [] [] "/w3"
        [FSNode.file "q.raw" [1] 1 0, FSNode.dir "sub" []]).emitted.countP isDirRec = 1 ∧
    Record.dirRec "/w3" 1 1 0 ∈
      (scanDir (fun _ => "W3") [] [] "/w3"
        [FSNode.file "q.raw" [1] 1 0, FSNode.dir "sub" []]).emitted :=
  ⟨(claim3_amended (fun _ => "W3") [] [] "/w3"
      [FSNode.file "q.raw" [1] 1 0, FSNode.dir "sub" []] (by decide) (by decide)).1,
   (claim3_amended (fun _ => "W3") [] [] "/w3"
      [FSNode.file "q.raw" [1] 1 0, FSNode.dir "sub" []] (by decide) (by decide)).2.1⟩

theorem enqOf_mem_intro (ig : List String) (p : String) (es : List FSNode) (c : FSNode)
    (hmem : c ∈ es) (hdir : isDirE c = true) (hig : isIgnored ig (nodeName c) = false) :
    (pathJoin p (nodeName c), c) ∈ enqOf ig p es :=
  List.mem_map.mpr ⟨c, List.mem_filter.mpr ⟨hmem, by simp [hdir, hig]⟩, rfl⟩

/-- Claim C4: scanning a directory that is in the Resume Index pushes
nothing to the sink queue (no file, symlink or directory row, hence no
fingerprint is computed for its files), cannot die on the assertion, and
still enqueues every non-ignored `is_dir()` entry — so a newly created
subdirectory is still discovered, and its whole recursive record set
appears in the run. -/
theorem claim4_thm (hash : List Nat → String) (ig dn : List String) (p : String)
    (es : List FSNode) (n : FSNode) (hdone : dn.contains p = true) :
    (scanDir hash ig dn p es).emitted = [] ∧
    (scanDir hash ig dn p es).err = none ∧
    (scanDir hash ig dn p es).enq = enqOf ig p es ∧
    (∀ c ∈ childrenOf n, isDirE c = true → isIgnored ig (nodeName c) = false →
      ∀ r ∈ runTree hash ig dn (pathJoin p (nodeName c)) c, r ∈ runTree hash ig dn p n) := by
  rw [scanDir_done hash ig dn p es hdone]
  refine ⟨rfl, rfl, rfl, ?_⟩
  intro c hc hdir hig r hr
  rw [runTree_eq]
  refine List.mem_append.mpr (Or.inr ?_)
  refine List.mem_flatten.mpr ⟨runTree hash ig dn (pathJoin p (nodeName c)) c, ?_, hr⟩
  refine List.mem_map.mpr ⟨(pathJoin p (nodeName c), c), ?_, rfl⟩
  rw [scanDir_done hash ig dn p (childrenOf n) hdone]
  exact enqOf_mem_intro ig p (childrenOf n) c hc hdir hig

/-- The worked example for C4: `/D` is pre-marked done and holds a newly
created subdirectory `new`. -/
def demoTree4 : FSNode :=
  FSNode.dir "D" [FSNode.dir "new" [FSNode.file "f.txt" [1] 1 5]]

/-- Witness for C4: the done directory `/D` emits nothing, yet the file of
its new subdirectory is hashed and recorded by the run. -/
theorem claim4_witness :
    (scanDir (fun _ => "W4") [] ["/D"] "/D" (childrenOf demoTree4)).emitted = [] ∧
    Record.fileRec "/D/new/f.txt" "f.txt" "/D/new" "txt" 1 5 "W4" ∈
      runTree (fun _ => "W4") [] ["/D"] "/D" demoTree4 := by
  have h := claim4_thm (fun _ => "W4") [] ["/D"] "/D" (childrenOf demoTree4) demoTree4
    (by decide)
  refine ⟨h.1, ?_⟩
  have hchild : runTree (fun _ => "W4") [] ["/D"] (pathJoin "/D" "new")
      (FSNode.dir "new" [FSNode.file "f.txt" [1] 1 5]) =
      [Record.fileRec "/D/new/f.txt" "f.txt" "/D/new" "txt" 1 5 "W4",
       Record.dirRec "/D/new" 1 0 0] := by
    rw [runTree_eq]
    rfl
  refine h.2.2.2 (FSNode.dir "new" [FSNode.file "f.txt" [1] 1 5])
    (by simp [demoTree4, childrenOf]) rfl rfl _ ?_
  simp only [nodeName]
  rw [hchild]
  decide

theorem not_strUnder_self (p a : String) : ¬ strUnder (pathJoin p a) p := by
  rintro (h | ⟨t, ht⟩)
  · have h1 := congrArg (fun s => s.toList.length) h
    simp only [pathJoin_toList, List.length_append, List.length_cons] at h1
    omega
  · have h1 := congrArg List.length ht
    simp only [pathJoin_toList, List.length_append, List.length_cons] at h1
    omega

theorem not_strUnder_sibling (p a b : String) (hb : '/' ∉ b.toList) (hne : b ≠ a) :
    ¬ strUnder (pathJoin p a) (pathJoin p b) := by
  rintro (h | ⟨t, ht⟩)
  · exact hne (pathJoin_inj h)
  · rw [pathJoin_toList, pathJoin_toList] at ht
    simp only [List.append_assoc, List.cons_append] at ht
    have h2 : a.toList ++ '/' :: t = b.toList := by
      have h3 := List.append_cancel_left ht
      simpa using h3
    exact hb (by rw [← h2]; exact List.mem_append.mpr (Or.inr (List.mem_cons_self _ _)))

theorem not_strUnder_deep (p a b : String) (s : List Char) (k : String)
    (ha : '/' ∉ a.toList) (hb : '/' ∉ b.toList) (hne : b ≠ a)
    (hk : (pathJoin p b).toList ++ '/' :: s = k.toList) :
    ¬ strUnder (pathJoin p a) k := by
  rintro (h | ⟨t, ht⟩)
  · subst h
    rw [pathJoin_toList, pathJoin_toList] at hk
    simp only [List.append_assoc, List.cons_append] at hk
    have h2 : b.toList ++ '/' :: s = a.toList := by
      have h3 := List.append_cancel_left hk
      simpa using h3
    exact ha (by rw [← h2]; exact List.mem_append.mpr (Or.inr (List.mem_cons_self _ _)))
  · rw [← hk] at ht
    rw [pathJoin_toList, pathJoin_toList] at ht
    simp only [List.append_assoc, List.cons_append] at ht
    have h2 : a.toList ++ '/' :: t = b.toList ++ '/' :: s := by
      have h3 := List.append_cancel_left ht
      simpa using h3
    exact hne (strToList_inj (slashEq b.toList a.toList s t hb ha h2.symm))

/-- Claim C5 is false on the code as stated for non-directory entries:
`_ignored` is consulted only under `item.is_dir()`, so a regular file
whose name matches an ignore glob is still hashed and recorded. -/
theorem claim5_cex :
    (scanDir (fun _ => "H5") ["*.backupdb"] [] "/c5"
        [FSNode.file "x.backupdb" [3] 1 0]).emitted =
      [Record.fileRec "/c5/x.backupdb" "x.backupdb" "/c5" "backupdb" 1 0 "H5",
       Record.dirRec "/c5" 1 0 0] ∧
    isIgnored ["*.backupdb"] "x.backupdb" = true := by decide

/-- Claim C5 (corrected): for every `is_dir()`-classified entry whose name
matches an ignore glob, the entry is neither enqueued for descent nor
scanned, and — when sibling names are distinct and slash-free, as a real
directory listing guarantees — no path in its subtree ever appears as the
key of any record of the whole run.  (A non-directory entry matching a
glob is still recorded; see the counterexample.) -/
theorem claim5_amended (hash : List Nat → String) (ig dn : List String) (p : String)
    (n e : FSNode) (he : e ∈ childrenOf n) (hd : isDirE e = true)
    (hig : isIgnored ig (nodeName e) = true)
    (hslash : ∀ c ∈ childrenOf n, '/' ∉ (nodeName c).toList)
    (hnodup : ((childrenOf n).map nodeName).Nodup) :
    (∀ pr ∈ (scanDir hash ig dn p (childrenOf n)).enq, pr.1 ≠ pathJoin p (nodeName e)) ∧
    (∀ k ∈ keysOf (runTree hash ig dn p n), ¬ strUnder (pathJoin p (nodeName e)) k) := by
  have hsa : '/' ∉ (nodeName e).toList := hslash e he
  constructor
  · intro pr hpr heq
    rcases scanDir_enq_shape hash ig dn p (childrenOf n) pr hpr with
      ⟨c, hces, hcdir, hcig, hcpr⟩
    have h1 : pathJoin p (nodeName c) = pathJoin p (nodeName e) := by rw [← heq, hcpr]
    have h2 : nodeName c = nodeName e := pathJoin_inj h1
    rw [h2, hig] at hcig
    exact Bool.noConfusion hcig
  · intro k hk hunder
    rw [runTree_eq] at hk
    simp only [keysOf, List.map_append, List.mem_append] at hk
    rcases hk with (hk | hk) | hk
    · rcases List.mem_map.mp hk with ⟨r, hr, hkey⟩
      rcases scanDir_emitted_key hash ig dn p (childrenOf n) r hr with hkp | ⟨c, hcm, hcd, hkc⟩
      · have hkp2 : k = p := by rw [← hkey, hkp]
        rw [hkp2] at hunder
        exact not_strUnder_self p (nodeName e) hunder
      · by_cases hnc : nodeName c = nodeName e
        · have hce : c = e := List.inj_on_of_nodup_map hnodup hcm he hnc
          rw [hce, hd] at hcd
          exact Bool.noConfusion hcd
        · have hkc2 : k = pathJoin p (nodeName c) := by rw [← hkey, hkc]
          rw [hkc2] at hunder
          exact not_strUnder_sibling p (nodeName e) (nodeName c) (hslash c hcm) hnc hunder
    · cases herr : (scanDir hash ig dn p (childrenOf n)).err with
      | some msg =>
        rw [herr] at hk
        simp only [List.map_cons, List.map_nil, List.mem_singleton] at hk
        have hkp2 : k = p := by rw [hk]; rfl
        rw [hkp2] at hunder
        exact not_strUnder_self p (nodeName e) hunder
      | none => rw [herr] at hk; simp at hk
    · rcases List.mem_map.mp hk with ⟨r, hr, hkey⟩
      rcases List.mem_flatten.mp hr with ⟨sub, hsub, hrsub⟩
      rcases List.mem_map.mp hsub with ⟨pr, hpr, hprsub⟩
      rcases scanDir_enq_shape hash ig dn p (childrenOf n) pr hpr with
        ⟨c, hcm, hcdir, hcig, hcpr⟩
      have hp1 : pr.1 = pathJoin p (nodeName c) := by rw [hcpr]
      have hcnea : nodeName c ≠ nodeName e := by
        intro heq2
        rw [heq2, hig] at hcig
        exact Bool.noConfusion hcig
      have hkmem : k ∈ keysOf (runTree hash ig dn pr.1 pr.2) := by
        rw [← hprsub] at hrsub
        rw [← hkey]
        exact List.mem_map_of_mem recordKey hrsub
      rcases runTree_key_shape (sizeOf pr.2) pr.2 le_rfl hash ig dn pr.1 k hkmem with
        hkq | ⟨s, hs⟩
      · rw [hkq, hp1] at hunder
        exact not_strUnder_sibling p (nodeName e) (nodeName c) (hslash c hcm) hcnea hunder
      · rw [hp1] at hs
        exact not_strUnder_deep p (nodeName e) (nodeName c) s k hsa (hslash c hcm)
          hcnea hs hunder

/-- The worked example for C5: one ignore-matched subdirectory with a
secret file, one sibling file that is scanned. -/
def demoTree5 : FSNode :=
  FSNode.dir "R5" [FSNode.dir "skip.backupdb" [FSNode.file "secret" [1] 1 0],
                   FSNode.file "keep.jpg" [2] 1 0]

/-- Witness for C5: the key the run does emit is not under the ignored
subdirectory. -/
theorem claim5_witness :
    ¬ strUnder (pathJoin "/r5" "skip.backupdb") "/r5/keep.jpg" := by
  have h := (claim5_amended (fun _ => "W5") ["*.backupdb"] [] "/r5" demoTree5
    (FSNode.dir "skip.backupdb" [FSNode.file "secret" [1] 1 0])
    (by simp [demoTree5, childrenOf]) rfl (by decide) (by decide) (by decide)).2
  apply h "/r5/keep.jpg"
  have hrt : runTree (fun _ => "W5") ["*.backupdb"] [] "/r5" demoTree5 =
      [Record.fileRec "/r5/keep.jpg" "keep.jpg" "/r5" "jpg" 1 0 "W5",
       Record.dirRec "/r5" 1 1 0] := by
    rw [runTree_eq]
    rfl
  rw [hrt]
  decide
